import Mathlib

/-!
Verification of the max-norm low-rank approximation notebook (`prox-max-norm.ipynb`).

The numeric code is embedded shallowly over an arbitrary linear ordered field `α`
(instantiated at `ℚ` for concrete evaluations).  The unbounded `while` loop of the
bisection root finder is modelled with an explicit fuel parameter, so every
function that may call it returns an `Option`.  The external linear-algebra
library routines (`np.linalg.svd`, `np.linalg.matrix_rank`, the Frobenius and
nuclear norms) are not part of the repository; `np.linalg.svd` is modelled as an
abstract factorisation function together with the predicate `IsSVD` stating the
guarantees the library provides, and the three scalar diagnostics are abstract
function parameters of the driver.
-/

set_option maxRecDepth 4000000

attribute [local semireducible] Rat.add Rat.mul Rat.sub Rat.inv Rat.ofScientific

namespace ProxMaxNorm

variable {α : Type*} [LinearOrderedField α]

/-- Embedding of `np.sign` on real scalars. -/
def npSign (a : α) : α := if a < 0 then -1 else if 0 < a then 1 else 0

/-- Embedding of `np.sum(np.abs(x))` on a flattened array. -/
def absSum (l : List α) : α := (l.map fun a => |a|).sum

/-- Embedding of `np.max(np.abs(x))` on a flattened array (0 on the empty array,
where `np.max` would raise). -/
def maxAbs (l : List α) : α := (l.map fun a => |a|).foldr max 0

/-- Embedding of `np.sum(np.maximum(np.abs(x) - t, 0))` on a flattened array. -/
def sumThresh (l : List α) (t : α) : α := (l.map fun a => max (|a| - t) 0).sum

/-- Row-major list of the entries of a matrix (the order `np.sum`, `np.max`
etc. traverse; the order is irrelevant to all of them). -/
def flatten {m n : ℕ} (x : Matrix (Fin m) (Fin n) α) : List α :=
  (List.finRange m).flatMap fun i => (List.finRange n).map fun j => x i j

/-- Body of the `while not converge` loop of `get_root`, with an explicit fuel
parameter standing for the number of remaining interval halvings.  One
invocation of this function performs the loop body once: compute the midpoint
`t` and residual `res`, move the bracket, and exit returning `t` as soon as
`|res| < tol * lambd`. -/
def get_rootLoop (x : List α) (lambd tol : α) : ℕ → α → α → Option α
  | 0, _, _ => none
  | Nat.succ fuel, t_lo, t_hi =>
    let t := 1 / 2 * (t_lo + t_hi)
    let res := sumThresh x t - lambd
    let t_lo2 := if res > 0 then t else t_lo
    let t_hi2 := if res > 0 then t_hi else t
    if |res| < tol * lambd then some t
    else get_rootLoop x lambd tol fuel t_lo2 t_hi2

/-- Embedding of `get_root(x, lambd, tol)`: bisection on `[0, max |x|]`. -/
def get_root (x : List α) (lambd tol : α) (fuel : ℕ) : Option α :=
  get_rootLoop x lambd tol fuel 0 (maxAbs x)

/-- Embedding of `prox_max_norm(x, lambd)`; the `tol` argument of `get_root` is
left at its default `1e-10`.  Returns `none` only when the root-finder fuel runs
out. -/
def prox_max_norm {m n : ℕ} (x : Matrix (Fin m) (Fin n) α) (lambd : α) (fuel : ℕ) :
    Option (Matrix (Fin m) (Fin n) α) :=
  let l1_norm := absSum (flatten x)
  if l1_norm ≤ lambd then some 0
  else
    (get_root (flatten x) lambd (1 / 10 ^ 10) fuel).map fun alpha =>
      Matrix.of fun i j => x i j - npSign (x i j) * max (|x i j| - alpha) 0

/-- Result of `np.linalg.svd(A, full_matrices=False)` on an `m × n` matrix:
factors `U : m × k`, singular values `S : k`, `V : k × n` with `k = min m n`. -/
structure SVD (α : Type*) (m n : ℕ) where
  U : Matrix (Fin m) (Fin (min m n)) α
  S : Fin (min m n) → α
  V : Matrix (Fin (min m n)) (Fin n) α

/-- Embedding of the broadcast product `U * S` (columnwise scaling). -/
def scaleCols {m k : ℕ} (U : Matrix (Fin m) (Fin k) α) (S : Fin k → α) :
    Matrix (Fin m) (Fin k) α :=
  Matrix.of fun i j => U i j * S j

/-- Embedding of the in-place update `S[r:] = 0`. -/
def truncSV {k : ℕ} (S : Fin k → α) (r : ℕ) : Fin k → α :=
  fun i => if r ≤ (i : ℕ) then 0 else S i

/-- Embedding of `proj_rank(A, r)`, parametrised by the external SVD routine:
truncate the singular values past the top `r` and recompose `(U * S) @ V`. -/
def proj_rank {m n : ℕ} (svd : Matrix (Fin m) (Fin n) α → SVD α m n)
    (A : Matrix (Fin m) (Fin n) α) (r : ℕ) : Matrix (Fin m) (Fin n) α :=
  scaleCols (svd A).U (truncSV (svd A).S r) * (svd A).V

/-- Embedding of the fixed point operator `T(Z, lambd, r, ord)`; the global `D`
of the notebook is passed explicitly, and `ord` is the dead parameter the step
never reads. -/
def T {m n : ℕ} (svd : Matrix (Fin m) (Fin n) α → SVD α m n)
    (Z D : Matrix (Fin m) (Fin n) α) (lambd : α) (r : ℕ) (ord : String) (fuel : ℕ) :
    Option (Matrix (Fin m) (Fin n) α × Matrix (Fin m) (Fin n) α) :=
  let X := proj_rank svd Z r
  (prox_max_norm ((2 : α) • X - Z - D) lambd fuel).map fun P => (X, Z + P + D - X)

/-- Embedding of `np.linalg.norm(·, ord='fro')`, parametrised by the square
root function of the ambient field (supplied externally, as `α` need not have
one). -/
def froNorm {m n : ℕ} (sqrtF : α → α) (M : Matrix (Fin m) (Fin n) α) : α :=
  sqrtF (((flatten M).map fun a => a * a).sum)

/-- One row of diagnostic bookkeeping of the driver loop: relative max error,
relative Frobenius error, `np.linalg.matrix_rank(X)` and the nuclear norm of
`X`, the latter two given by abstract external routines. -/
def diagRow {m n : ℕ} (sqrtF : α → α) (mrank : Matrix (Fin m) (Fin n) α → ℕ)
    (nnorm : Matrix (Fin m) (Fin n) α → α) (X D : Matrix (Fin m) (Fin n) α) :
    α × α × ℕ × α :=
  (maxAbs (flatten (X - D)) / maxAbs (flatten D),
   froNorm sqrtF (X - D) / froNorm sqrtF D,
   mrank X, nnorm X)

/-- The `for k in range(iters)` loop of `compute_low_rank_est`: starting from
the current splitting variable `Z`, perform the given number of fixed point
steps, collecting one diagnostic row per step and the `X` of the last step
(`none` when zero steps were performed, matching `X` being undefined in the
source when `iters = 0`). -/
def driverLoop {m n : ℕ} (svd : Matrix (Fin m) (Fin n) α → SVD α m n) (sqrtF : α → α)
    (mrank : Matrix (Fin m) (Fin n) α → ℕ) (nnorm : Matrix (Fin m) (Fin n) α → α)
    (D : Matrix (Fin m) (Fin n) α) (r : ℕ) (lambd : α) (ord : String) (fuel : ℕ) :
    ℕ → Matrix (Fin m) (Fin n) α →
      Option (List (α × α × ℕ × α) × Option (Matrix (Fin m) (Fin n) α))
  | 0, _ => some ([], none)
  | Nat.succ k, Z =>
    (T svd Z D lambd r ord fuel).bind fun XZ =>
      (driverLoop svd sqrtF mrank nnorm D r lambd ord fuel k XZ.2).map fun rest =>
        (diagRow sqrtF mrank nnorm XZ.1 D :: rest.1, some (rest.2.getD XZ.1))

/-- Embedding of `compute_low_rank_est(D, r, lambd, ord, iters)`: initialise
`Z = D.copy()`, run the driver loop, and return the final `X` with the four
diagnostic series (progress printing of the source is presentation, not state). -/
def compute_low_rank_est {m n : ℕ} (svd : Matrix (Fin m) (Fin n) α → SVD α m n)
    (sqrtF : α → α) (mrank : Matrix (Fin m) (Fin n) α → ℕ)
    (nnorm : Matrix (Fin m) (Fin n) α → α) (D : Matrix (Fin m) (Fin n) α) (r : ℕ)
    (lambd : α) (ord : String) (iters fuel : ℕ) :
    Option (Matrix (Fin m) (Fin n) α × List α × List α × List ℕ × List α) :=
  (driverLoop svd sqrtF mrank nnorm D r lambd ord fuel iters D).bind fun p =>
    p.2.map fun X =>
      (X, p.1.map fun d => d.1, p.1.map fun d => d.2.1, p.1.map fun d => d.2.2.1,
        p.1.map fun d => d.2.2.2)

/-- The pair `(X, Z)` produced by fixed point step number `k` (0-indexed) when
the driver loop is started at splitting variable `Z`. -/
def iterPair {m n : ℕ} (svd : Matrix (Fin m) (Fin n) α → SVD α m n)
    (D : Matrix (Fin m) (Fin n) α) (lambd : α) (r : ℕ) (ord : String) (fuel : ℕ) :
    ℕ → Matrix (Fin m) (Fin n) α →
      Option (Matrix (Fin m) (Fin n) α × Matrix (Fin m) (Fin n) α)
  | 0, Z => T svd Z D lambd r ord fuel
  | Nat.succ k, Z =>
    (T svd Z D lambd r ord fuel).bind fun p => iterPair svd D lambd r ord fuel k p.2

/-- Guarantees of the external `np.linalg.svd` routine: exact reconstruction,
orthonormal columns of `U`, orthonormal rows of `V`, and nonincreasing
nonnegative singular values. -/
structure IsSVD {m n : ℕ} (svd : Matrix (Fin m) (Fin n) α → SVD α m n) : Prop where
  recon : ∀ A, scaleCols (svd A).U (svd A).S * (svd A).V = A
  orthL : ∀ A, Matrix.transpose ((svd A).U) * (svd A).U = 1
  orthR : ∀ A, (svd A).V * Matrix.transpose ((svd A).V) = 1
  anti : ∀ A, ∀ i j : Fin (min m n), i ≤ j → (svd A).S j ≤ (svd A).S i
  svNonneg : ∀ A, ∀ i, 0 ≤ (svd A).S i

/-- Spec-side definition (from the contract of §4.2): the objective
`lambd * ‖u‖∞ + (1/2) * ‖u - x‖²` whose unique minimizer the spec says
`prox_max_norm(x, lambd)` returns. -/
def specMaxNormObjective {m n : ℕ} (x u : Matrix (Fin m) (Fin n) α) (lambd : α) : α :=
  lambd * maxAbs (flatten u) + 1 / 2 * (((flatten (u - x)).map fun a => a * a).sum)

/-- Concrete SVD routine for `1 × 1` rational matrices, used to instantiate the
abstract `np.linalg.svd` parameter on concrete inputs: `[[a]] = [[1]] [[|a|]] [[±1]]`. -/
def svdQ (A : Matrix (Fin 1) (Fin 1) ℚ) : SVD ℚ 1 1 where
  U := Matrix.of fun _ _ => 1
  S := fun _ => |A 0 0|
  V := Matrix.of fun _ _ => if A 0 0 < 0 then -1 else 1

/-! Basic facts about the flattened-array primitives. -/

lemma maxAbs_cons (a : α) (l : List α) : maxAbs (a :: l) = max |a| (maxAbs l) := rfl

lemma maxAbs_nonneg (l : List α) : 0 ≤ maxAbs l := by
  induction l with
  | nil => exact le_refl 0
  | cons a l ih => exact le_trans ih (by rw [maxAbs_cons]; exact le_max_right _ _)

lemma abs_le_maxAbs {a : α} {l : List α} (h : a ∈ l) : |a| ≤ maxAbs l := by
  induction l with
  | nil => cases h
  | cons b l ih =>
    rw [maxAbs_cons]
    rcases List.mem_cons.mp h with rfl | h2
    · exact le_max_left _ _
    · exact le_trans (ih h2) (le_max_right _ _)

lemma sumThresh_cons (a : α) (l : List α) (t : α) :
    sumThresh (a :: l) t = max (|a| - t) 0 + sumThresh l t := by
  simp [sumThresh]

lemma sumThresh_zero_eq (l : List α) : sumThresh l 0 = absSum l := by
  induction l with
  | nil => rfl
  | cons a l ih =>
    rw [sumThresh_cons, ih]
    have : max (|a| - 0) 0 = |a| := by rw [sub_zero]; exact max_eq_left (abs_nonneg a)
    rw [this]
    simp [absSum]

lemma sumThresh_eq_zero {l : List α} {t : α} (h : ∀ a ∈ l, |a| ≤ t) : sumThresh l t = 0 := by
  induction l with
  | nil => rfl
  | cons a l ih =>
    rw [sumThresh_cons, ih fun b hb => h b (List.mem_cons_of_mem a hb)]
    have : max (|a| - t) 0 = 0 :=
      max_eq_right (sub_nonpos.mpr (h a (List.mem_cons_self a l)))
    rw [this, add_zero]

lemma sumThresh_maxAbs (l : List α) : sumThresh l (maxAbs l) = 0 :=
  sumThresh_eq_zero fun _ ha => abs_le_maxAbs ha

lemma sumThresh_lipschitz (l : List α) (a b : α) :
    |sumThresh l a - sumThresh l b| ≤ (l.length : α) * |a - b| := by
  induction l with
  | nil => simp [sumThresh]
  | cons c l ih =>
    have h1 : |max (|c| - a) 0 - max (|c| - b) 0| ≤ |a - b| := by
      refine le_trans (abs_max_sub_max_le_abs _ _ _) (le_of_eq ?_)
      rw [show |c| - a - (|c| - b) = b - a by ring, abs_sub_comm]
    have e : sumThresh (c :: l) a - sumThresh (c :: l) b =
        (max (|c| - a) 0 - max (|c| - b) 0) + (sumThresh l a - sumThresh l b) := by
      rw [sumThresh_cons, sumThresh_cons]; ring
    have hcast : ((c :: l).length : α) = (l.length : α) + 1 := by
      rw [List.length_cons]; push_cast; ring
    rw [e, hcast]
    calc |(max (|c| - a) 0 - max (|c| - b) 0) + (sumThresh l a - sumThresh l b)|
        ≤ |max (|c| - a) 0 - max (|c| - b) 0| + |sumThresh l a - sumThresh l b| :=
          abs_add _ _
      _ ≤ |a - b| + (l.length : α) * |a - b| := add_le_add h1 ih
      _ = ((l.length : α) + 1) * |a - b| := by ring

/-! The bisection loop. -/

lemma get_rootLoop_succ (x : List α) (lambd tol : α) (fuel : ℕ) (t_lo t_hi : α) :
    get_rootLoop x lambd tol (fuel + 1) t_lo t_hi =
      if |sumThresh x (1 / 2 * (t_lo + t_hi)) - lambd| < tol * lambd then
        some (1 / 2 * (t_lo + t_hi))
      else if sumThresh x (1 / 2 * (t_lo + t_hi)) - lambd > 0 then
        get_rootLoop x lambd tol fuel (1 / 2 * (t_lo + t_hi)) t_hi
      else get_rootLoop x lambd tol fuel t_lo (1 / 2 * (t_lo + t_hi)) := by
  by_cases h : sumThresh x (1 / 2 * (t_lo + t_hi)) - lambd > 0
  · simp only [get_rootLoop, if_pos h]
  · simp only [get_rootLoop, if_neg h]

lemma get_rootLoop_spec (x : List α) (lambd tol : α) :
    ∀ (fuel : ℕ) (t_lo t_hi B t : α), 0 ≤ t_lo → t_lo ≤ t_hi → t_hi ≤ B →
      get_rootLoop x lambd tol fuel t_lo t_hi = some t →
      |sumThresh x t - lambd| < tol * lambd ∧ 0 ≤ t ∧ t ≤ B := by
  intro fuel
  induction fuel with
  | zero => intro t_lo t_hi B t _ _ _ h; exact absurd h (by simp [get_rootLoop])
  | succ fuel ih =>
    intro t_lo t_hi B t h0 h1 h2 h
    rw [get_rootLoop_succ] at h
    have hml : t_lo ≤ 1 / 2 * (t_lo + t_hi) := by linarith
    have hmh : 1 / 2 * (t_lo + t_hi) ≤ t_hi := by linarith
    by_cases hc : |sumThresh x (1 / 2 * (t_lo + t_hi)) - lambd| < tol * lambd
    · rw [if_pos hc] at h
      cases h
      exact ⟨hc, by linarith, by linarith⟩
    · rw [if_neg hc] at h
      by_cases hr : sumThresh x (1 / 2 * (t_lo + t_hi)) - lambd > 0
      · rw [if_pos hr] at h
        exact ih (1 / 2 * (t_lo + t_hi)) t_hi B t (by linarith) hmh h2 h
      · rw [if_neg hr] at h
        exact ih t_lo (1 / 2 * (t_lo + t_hi)) B t h0 hml (by linarith) h

/-- C2: for input `x` and budget `lambd > 0` with `Σ|x_i| > lambd`, any threshold
`alpha` returned by `get_root` satisfies `|Σ max(|x_i| - alpha, 0) - lambd| < tol * lambd`
and lies in the interval `[0, max |x_i|]`. -/
theorem get_root_residual_and_range {x : List α} {lambd tol : α} {fuel : ℕ} {alpha : α}
    (hl : 0 < lambd) (hpre : lambd < absSum x)
    (h : get_root x lambd tol fuel = some alpha) :
    |sumThresh x alpha - lambd| < tol * lambd ∧ 0 ≤ alpha ∧ alpha ≤ maxAbs x :=
  get_rootLoop_spec x lambd tol fuel 0 (maxAbs x) (maxAbs x) alpha (le_refl 0)
    (maxAbs_nonneg x) (le_refl _) h

/-- C2 witness: `get_root` on `x = [1]`, `lambd = 1/2` (default `tol = 1e-10`)
returns `1/2` after one halving, and the theorem's conclusion holds there. -/
theorem get_root_residual_and_range_witness :
    |sumThresh [(1 : ℚ)] (1 / 2) - 1 / 2| < 1 / 10 ^ 10 * (1 / 2) ∧
      (0 : ℚ) ≤ 1 / 2 ∧ (1 / 2 : ℚ) ≤ maxAbs [(1 : ℚ)] :=
  @get_root_residual_and_range ℚ _ [(1 : ℚ)] (1 / 2) (1 / 10 ^ 10) 1 (1 / 2)
    (by norm_num) (by decide) (by decide)

lemma prox_max_norm_of_le {m n : ℕ} (x : Matrix (Fin m) (Fin n) α) (lambd : α)
    (fuel : ℕ) (h : absSum (flatten x) ≤ lambd) : prox_max_norm x lambd fuel = some 0 := by
  simp [prox_max_norm, h]

/-- C3 counterexample: at `x = [[1]]`, `lambd = 1/3` the bisection threshold is the
dyadic `11453246123/2^34`, not the exact root `2/3`, so `prox_max_norm` returns a
point whose objective `lambd‖u‖∞ + ½‖u-x‖²` is strictly larger than at
`u = [[2/3]]` — the returned matrix is not the minimizer the spec's contract
promises. -/
theorem prox_max_norm_not_exact_minimizer :
    prox_max_norm !![(1 : ℚ)] (1 / 3) 40 =
      some (Matrix.of fun _ _ => 11453246123 / 17179869184) ∧
    specMaxNormObjective !![(1 : ℚ)] (Matrix.of fun _ _ => 2 / 3) (1 / 3) <
      specMaxNormObjective !![(1 : ℚ)]
        (Matrix.of fun _ _ => 11453246123 / 17179869184) (1 / 3) := by
  constructor
  · have hr : get_root (flatten !![(1 : ℚ)]) (1 / 3) (1 / 10 ^ 10) 40 =
        some (11453246123 / 17179869184) := by decide
    have hc : ¬ absSum (flatten !![(1 : ℚ)]) ≤ 1 / 3 := by decide
    simp only [prox_max_norm, if_neg hc, hr, Option.map_some']
    congr 1
    decide
  · decide

/-- C3 amended: `prox_max_norm` is the exact proximal value `0` on the branch
`Σ|x_i| ≤ lambd`, and otherwise soft-thresholds `x` at the bisection threshold
`alpha`, which only satisfies the L1-projection root equation to relative
tolerance `1e-10` — an approximation of the unique minimizer of
`lambd‖u‖∞ + ½‖u-x‖²`, not the exact minimizer. -/
theorem prox_max_norm_approx {m n : ℕ} (x : Matrix (Fin m) (Fin n) α) (lambd : α)
    (fuel : ℕ) (P : Matrix (Fin m) (Fin n) α) (hl : 0 < lambd)
    (h : prox_max_norm x lambd fuel = some P) :
    (absSum (flatten x) ≤ lambd ∧ P = 0) ∨
    (∃ alpha, get_root (flatten x) lambd (1 / 10 ^ 10) fuel = some alpha ∧
      P = Matrix.of (fun i j => x i j - npSign (x i j) * max (|x i j| - alpha) 0) ∧
      |sumThresh (flatten x) alpha - lambd| < 1 / 10 ^ 10 * lambd ∧
      0 ≤ alpha ∧ alpha ≤ maxAbs (flatten x)) := by
  by_cases hc : absSum (flatten x) ≤ lambd
  · left
    rw [prox_max_norm_of_le x lambd fuel hc] at h
    exact ⟨hc, (Option.some.inj h).symm⟩
  · right
    simp only [prox_max_norm, if_neg hc] at h
    rcases Option.map_eq_some'.mp h with ⟨alpha, ha, hP⟩
    have hspec := get_rootLoop_spec (flatten x) lambd (1 / 10 ^ 10) fuel 0
      (maxAbs (flatten x)) (maxAbs (flatten x)) alpha (le_refl 0)
      (maxAbs_nonneg _) (le_refl _) ha
    exact ⟨alpha, ha, hP.symm, hspec.1, hspec.2.1, hspec.2.2⟩

/-- C3 amended witness: at `x = [[1]]`, `lambd = 2` the proximal operator returns
`some 0` with zero fuel and the zero branch of the amended description holds. -/
theorem prox_max_norm_approx_witness :
    (absSum (flatten !![(1 : ℚ)]) ≤ 2 ∧ (0 : Matrix (Fin 1) (Fin 1) ℚ) = 0) ∨
    (∃ alpha, get_root (flatten !![(1 : ℚ)]) 2 (1 / 10 ^ 10) 0 = some alpha ∧
      (0 : Matrix (Fin 1) (Fin 1) ℚ) =
        Matrix.of (fun i j =>
          !![(1 : ℚ)] i j - npSign (!![(1 : ℚ)] i j) * max (|!![(1 : ℚ)] i j| - alpha) 0) ∧
      |sumThresh (flatten !![(1 : ℚ)]) alpha - 2| < 1 / 10 ^ 10 * 2 ∧
      0 ≤ alpha ∧ alpha ≤ maxAbs (flatten !![(1 : ℚ)])) :=
  prox_max_norm_approx !![(1 : ℚ)] 2 0 0 (by norm_num) (by decide)

lemma get_rootLoop_mono (x : List α) (lambd tol : α) :
    ∀ (fuel fuel2 : ℕ), fuel ≤ fuel2 → ∀ (t_lo t_hi t : α),
      get_rootLoop x lambd tol fuel t_lo t_hi = some t →
      get_rootLoop x lambd tol fuel2 t_lo t_hi = some t := by
  intro fuel
  induction fuel with
  | zero => intro fuel2 _ t_lo t_hi t h; exact absurd h (by simp [get_rootLoop])
  | succ fuel ih =>
    intro fuel2 hle t_lo t_hi t h
    obtain ⟨fuel2, rfl⟩ : ∃ f2, fuel2 = f2 + 1 := ⟨fuel2 - 1, by omega⟩
    rw [get_rootLoop_succ] at h ⊢
    by_cases hc : |sumThresh x (1 / 2 * (t_lo + t_hi)) - lambd| < tol * lambd
    · rwa [if_pos hc] at h ⊢
    · rw [if_neg hc] at h ⊢
      by_cases hr : sumThresh x (1 / 2 * (t_lo + t_hi)) - lambd > 0
      · rw [if_pos hr] at h ⊢
        exact ih fuel2 (by omega) _ _ _ h
      · rw [if_neg hr] at h ⊢
        exact ih fuel2 (by omega) _ _ _ h

lemma midpoint_residual_bound (x : List α) (lambd : α) {t_lo t_hi : α}
    (hlo : 0 ≤ sumThresh x t_lo - lambd) (hhi : sumThresh x t_hi - lambd ≤ 0)
    (hle : t_lo ≤ t_hi) :
    |sumThresh x (1 / 2 * (t_lo + t_hi)) - lambd| ≤
      2 * ((x.length : α) + 1) * (t_hi - t_lo) := by
  have hL : (0 : α) ≤ (x.length : α) := Nat.cast_nonneg _
  have hlip1 := sumThresh_lipschitz x (1 / 2 * (t_lo + t_hi)) t_lo
  have hlip2 := sumThresh_lipschitz x t_lo t_hi
  have habs1 : |1 / 2 * (t_lo + t_hi) - t_lo| = (t_hi - t_lo) / 2 := by
    rw [abs_of_nonneg (by linarith)]; ring
  have habs2 : |t_lo - t_hi| = t_hi - t_lo := by
    rw [abs_sub_comm, abs_of_nonneg (by linarith)]
  rw [habs1] at hlip1
  rw [habs2] at hlip2
  have e1 : (x.length : α) * ((t_hi - t_lo) / 2) = (x.length : α) * (t_hi - t_lo) / 2 := by
    ring
  rw [e1] at hlip1
  have hP : 0 ≤ (x.length : α) * (t_hi - t_lo) := mul_nonneg hL (by linarith)
  have ha1 := le_abs_self (sumThresh x (1 / 2 * (t_lo + t_hi)) - sumThresh x t_lo)
  have ha2 := neg_abs_le (sumThresh x (1 / 2 * (t_lo + t_hi)) - sumThresh x t_lo)
  have ha3 := le_abs_self (sumThresh x t_lo - sumThresh x t_hi)
  rw [abs_le]
  constructor <;> linarith

lemma get_rootLoop_isSome (x : List α) (lambd tol : α) :
    ∀ (fuel : ℕ) (t_lo t_hi : α),
      0 ≤ sumThresh x t_lo - lambd → sumThresh x t_hi - lambd ≤ 0 → t_lo ≤ t_hi →
      2 * ((x.length : α) + 1) * (t_hi - t_lo) < tol * lambd * 2 ^ fuel →
      (get_rootLoop x lambd tol (fuel + 1) t_lo t_hi).isSome = true := by
  intro fuel
  induction fuel with
  | zero =>
    intro t_lo t_hi hlo hhi hle hw
    rw [get_rootLoop_succ]
    have hkey : |sumThresh x (1 / 2 * (t_lo + t_hi)) - lambd| < tol * lambd := by
      have := midpoint_residual_bound x lambd hlo hhi hle
      have e : tol * lambd * 2 ^ (0 : ℕ) = tol * lambd := by ring
      rw [e] at hw
      linarith
    rw [if_pos hkey]
    rfl
  | succ fuel ih =>
    intro t_lo t_hi hlo hhi hle hw
    rw [get_rootLoop_succ]
    by_cases hc : |sumThresh x (1 / 2 * (t_lo + t_hi)) - lambd| < tol * lambd
    · rw [if_pos hc]; rfl
    · rw [if_neg hc]
      have e2 : tol * lambd * 2 ^ (fuel + 1) = 2 * (tol * lambd * 2 ^ fuel) := by
        rw [pow_succ]; ring
      rw [e2] at hw
      by_cases hr : sumThresh x (1 / 2 * (t_lo + t_hi)) - lambd > 0
      · rw [if_pos hr]
        have e3 : 2 * ((x.length : α) + 1) * (t_hi - 1 / 2 * (t_lo + t_hi)) =
            2 * ((x.length : α) + 1) * (t_hi - t_lo) / 2 := by ring
        exact ih (1 / 2 * (t_lo + t_hi)) t_hi (le_of_lt hr) hhi (by linarith)
          (by rw [e3]; linarith)
      · rw [if_neg hr]
        have e3 : 2 * ((x.length : α) + 1) * (1 / 2 * (t_lo + t_hi) - t_lo) =
            2 * ((x.length : α) + 1) * (t_hi - t_lo) / 2 := by ring
        exact ih t_lo (1 / 2 * (t_lo + t_hi)) hlo (by linarith [not_lt.mp hr])
          (by linarith) (by rw [e3]; linarith)

/-- C4: under the caller's precondition `Σ|x_i| > lambd > 0` (and `tol > 0`), the
bisection loop terminates: there is a bound `N`, determined by `x`, `lambd` and
`tol`, such that `get_root` returns a value whenever it is allowed at least `N`
halvings. -/
theorem get_root_terminates [Archimedean α] (x : List α) (lambd tol : α)
    (hl : 0 < lambd) (htol : 0 < tol) (hpre : lambd < absSum x) :
    ∃ N, ∀ fuel, N ≤ fuel → (get_root x lambd tol fuel).isSome = true := by
  obtain ⟨N0, hN0⟩ := pow_unbounded_of_one_lt
    (2 * ((x.length : α) + 1) * (maxAbs x - 0) / (tol * lambd)) one_lt_two
  refine ⟨N0 + 1, fun fuel hf => ?_⟩
  have hlo : 0 ≤ sumThresh x 0 - lambd := by rw [sumThresh_zero_eq]; linarith
  have hhi : sumThresh x (maxAbs x) - lambd ≤ 0 := by rw [sumThresh_maxAbs]; linarith
  have hpos : 0 < tol * lambd := mul_pos htol hl
  have hw : 2 * ((x.length : α) + 1) * (maxAbs x - 0) < tol * lambd * 2 ^ N0 := by
    rw [div_lt_iff hpos] at hN0
    have e : tol * lambd * 2 ^ N0 = 2 ^ N0 * (tol * lambd) := by ring
    rw [e]
    exact hN0
  have h1 := get_rootLoop_isSome x lambd tol N0 0 (maxAbs x) hlo hhi (maxAbs_nonneg x) hw
  obtain ⟨t, ht⟩ := Option.isSome_iff_exists.mp h1
  have h2 := get_rootLoop_mono x lambd tol (N0 + 1) fuel hf 0 (maxAbs x) t ht
  rw [get_root, h2]
  rfl

/-- C4 witness: on `x = [1]`, `lambd = 1/2`, `tol = 1e-10` the precondition holds
and the loop terminates with bounded fuel. -/
theorem get_root_terminates_witness :
    ∃ N, ∀ fuel, N ≤ fuel → (get_root [(1 : ℚ)] (1 / 2) (1 / 10 ^ 10) fuel).isSome = true :=
  get_root_terminates [(1 : ℚ)] (1 / 2) (1 / 10 ^ 10) (by norm_num) (by norm_num) (by decide)

/-- C8: when `Σ|x_i| ≤ lambd`, `prox_max_norm` returns the all-zero matrix of the
same shape as `x`; it does so for every fuel value, in particular for fuel `0`,
on which any invocation of the root finder would return `none` — so the root
finder is not invoked on this branch. -/
theorem prox_max_norm_zero_of_small_l1 {m n : ℕ} (x : Matrix (Fin m) (Fin n) α)
    (lambd : α) (h : absSum (flatten x) ≤ lambd) :
    ∀ fuel, prox_max_norm x lambd fuel = some 0 := by
  intro fuel
  simp [prox_max_norm, h]

/-- C8 witness: `x = [[1, 2]]`, `lambd = 5` has `Σ|x_i| = 3 ≤ 5` and the proximal
operator evaluates to the zero matrix with zero fuel. -/
theorem prox_max_norm_zero_of_small_l1_witness :
    prox_max_norm !![(1 : ℚ), 2] 5 0 = some 0 :=
  prox_max_norm_zero_of_small_l1 !![(1 : ℚ), 2] 5 (by decide) 0

/-- C10: with rank target `r = 0`, `proj_rank` zeroes every singular value and
returns the all-zero matrix, for any factorisation the SVD routine produces. -/
theorem proj_rank_zero_target {m n : ℕ} (svd : Matrix (Fin m) (Fin n) α → SVD α m n)
    (A : Matrix (Fin m) (Fin n) α) : proj_rank svd A 0 = 0 := by
  have h1 : truncSV (svd A).S 0 = fun _ => 0 := funext fun i => if_pos (Nat.zero_le _)
  have h2 : scaleCols (svd A).U (fun _ => (0 : α)) = 0 := by
    ext i j
    simp [scaleCols]
  rw [proj_rank, h1, h2, Matrix.zero_mul]

/-! Rank facts about the truncated SVD recomposition. -/

lemma scaleCols_eq_mul_diagonal {m k : ℕ} (U : Matrix (Fin m) (Fin k) α) (S : Fin k → α) :
    scaleCols U S = U * Matrix.diagonal S := by
  ext i j
  rw [Matrix.mul_diagonal]
  rfl

lemma card_truncSV_support_le {k : ℕ} (S : Fin k → α) (r : ℕ) :
    Fintype.card {i // truncSV S r i ≠ 0} ≤ r := by
  have hlt : ∀ p : {i // truncSV S r i ≠ 0}, (p.1 : ℕ) < r := by
    intro p
    by_contra hge
    exact p.2 (if_pos (le_of_not_lt hge))
  refine le_trans
    (Fintype.card_le_of_injective (fun p => (⟨(p.1 : ℕ), hlt p⟩ : Fin r)) ?_)
    (le_of_eq (Fintype.card_fin r))
  intro p q hpq
  have h2 : ((⟨(p.1 : ℕ), hlt p⟩ : Fin r) : ℕ) = ((⟨(q.1 : ℕ), hlt q⟩ : Fin r) : ℕ) :=
    congrArg Fin.val hpq
  exact Subtype.ext (Fin.ext h2)

lemma rank_proj_rank_le {m n : ℕ} (svd : Matrix (Fin m) (Fin n) α → SVD α m n)
    (A : Matrix (Fin m) (Fin n) α) (r : ℕ) : (proj_rank svd A r).rank ≤ r := by
  rw [proj_rank, scaleCols_eq_mul_diagonal]
  refine le_trans (Matrix.rank_mul_le_left _ _) ?_
  refine le_trans (Matrix.rank_mul_le_right _ _) ?_
  rw [Matrix.rank_diagonal]
  exact card_truncSV_support_le _ r

lemma rank_mul_eq_of_orthL {m k o : ℕ} {U : Matrix (Fin m) (Fin k) α}
    (hU : Matrix.transpose U * U = 1) (M : Matrix (Fin k) (Fin o) α) :
    (U * M).rank = M.rank := by
  refine le_antisymm (Matrix.rank_mul_le_right _ _) ?_
  have h1 : M = Matrix.transpose U * (U * M) := by
    rw [← Matrix.mul_assoc, hU, Matrix.one_mul]
  calc M.rank = (Matrix.transpose U * (U * M)).rank := by rw [← h1]
    _ ≤ (U * M).rank := Matrix.rank_mul_le_right _ _

lemma rank_mul_eq_of_orthR {m k o : ℕ} {V : Matrix (Fin k) (Fin o) α}
    (hV : V * Matrix.transpose V = 1) (M : Matrix (Fin m) (Fin k) α) :
    (M * V).rank = M.rank := by
  refine le_antisymm (Matrix.rank_mul_le_left _ _) ?_
  have h1 : M = (M * V) * Matrix.transpose V := by
    rw [Matrix.mul_assoc, hV, Matrix.mul_one]
  calc M.rank = ((M * V) * Matrix.transpose V).rank := by rw [← h1]
    _ ≤ (M * V).rank := Matrix.rank_mul_le_left _ _

lemma rank_eq_card_sv_support {m n : ℕ} {svd : Matrix (Fin m) (Fin n) α → SVD α m n}
    (hsvd : IsSVD svd) (A : Matrix (Fin m) (Fin n) α) :
    A.rank = Fintype.card {j // (svd A).S j ≠ 0} := by
  conv_lhs => rw [← hsvd.recon A]
  rw [scaleCols_eq_mul_diagonal, rank_mul_eq_of_orthR (hsvd.orthR A),
    rank_mul_eq_of_orthL (hsvd.orthL A), Matrix.rank_diagonal]

lemma sv_eq_zero_of_rank_le {m n : ℕ} {svd : Matrix (Fin m) (Fin n) α → SVD α m n}
    (hsvd : IsSVD svd) {A : Matrix (Fin m) (Fin n) α} {r : ℕ} (hA : A.rank ≤ r)
    (i : Fin (min m n)) (hi : r ≤ (i : ℕ)) : (svd A).S i = 0 := by
  by_contra hne
  have hpos : 0 < (svd A).S i := lt_of_le_of_ne (hsvd.svNonneg A i) (Ne.symm hne)
  have hmem : ∀ j : Fin ((i : ℕ) + 1),
      (svd A).S ⟨(j : ℕ), lt_of_le_of_lt (Nat.lt_succ_iff.mp j.2) i.2⟩ ≠ 0 := by
    intro j
    have hle : (⟨(j : ℕ), lt_of_le_of_lt (Nat.lt_succ_iff.mp j.2) i.2⟩ : Fin (min m n)) ≤ i :=
      Nat.lt_succ_iff.mp j.2
    exact ne_of_gt (lt_of_lt_of_le hpos (hsvd.anti A _ i hle))
  have hcard : (i : ℕ) + 1 ≤ Fintype.card {j // (svd A).S j ≠ 0} := by
    have hinj : Function.Injective (fun j : Fin ((i : ℕ) + 1) =>
        (⟨⟨(j : ℕ), lt_of_le_of_lt (Nat.lt_succ_iff.mp j.2) i.2⟩, hmem j⟩ :
          {j // (svd A).S j ≠ 0})) := by
      intro a b hab
      exact Fin.ext (congrArg (fun p => ((p : {j // (svd A).S j ≠ 0}).1 : ℕ)) hab)
    have := Fintype.card_le_of_injective _ hinj
    simpa using this
  rw [← rank_eq_card_sv_support hsvd A] at hcard
  omega

lemma truncSV_eq_of_rank_le {m n : ℕ} {svd : Matrix (Fin m) (Fin n) α → SVD α m n}
    (hsvd : IsSVD svd) {A : Matrix (Fin m) (Fin n) α} {r : ℕ} (hA : A.rank ≤ r) :
    truncSV (svd A).S r = (svd A).S := by
  funext i
  rw [truncSV]
  by_cases hi : r ≤ (i : ℕ)
  · rw [if_pos hi, sv_eq_zero_of_rank_le hsvd hA i hi]
  · rw [if_neg hi]

/-- C7: the rank projection is idempotent: truncating the SVD of a matrix that
already has rank at most `r` reproduces the matrix exactly, so
`proj_rank(proj_rank(A, r), r) = proj_rank(A, r)`. -/
theorem proj_rank_idempotent {m n : ℕ} (svd : Matrix (Fin m) (Fin n) α → SVD α m n)
    (hsvd : IsSVD svd) (A : Matrix (Fin m) (Fin n) α) (r : ℕ) :
    proj_rank svd (proj_rank svd A r) r = proj_rank svd A r := by
  have hB : (proj_rank svd A r).rank ≤ r := rank_proj_rank_le svd A r
  set B := proj_rank svd A r with hBdef
  rw [show proj_rank svd B r = scaleCols (svd B).U (truncSV (svd B).S r) * (svd B).V
      from rfl,
    truncSV_eq_of_rank_le hsvd hB, hsvd.recon]

lemma T_fst {m n : ℕ} {svd : Matrix (Fin m) (Fin n) α → SVD α m n}
    {Z D : Matrix (Fin m) (Fin n) α} {lambd : α} {r : ℕ} {ord : String} {fuel : ℕ}
    {p : Matrix (Fin m) (Fin n) α × Matrix (Fin m) (Fin n) α}
    (h : T svd Z D lambd r ord fuel = some p) : p.1 = proj_rank svd Z r := by
  simp only [T] at h
  rcases Option.map_eq_some'.mp h with ⟨P, _, hP⟩
  rw [← hP]

/-- C1: the fixed point step returns the pair `(X_new, Z_new)` with
`X_new = proj_rank(Z, r)` and `Z_new = Z + prox_max_norm(2 X_new - Z - D, lambd) + D - X_new`
(stated conditionally on the proximal operator's bisection having enough fuel to
return a value `P`). -/
theorem fixedPointStep_eq {m n : ℕ} (svd : Matrix (Fin m) (Fin n) α → SVD α m n)
    (Z D : Matrix (Fin m) (Fin n) α) (lambd : α) (r : ℕ) (ord : String) (fuel : ℕ)
    (P : Matrix (Fin m) (Fin n) α)
    (h : prox_max_norm ((2 : α) • proj_rank svd Z r - Z - D) lambd fuel = some P) :
    T svd Z D lambd r ord fuel =
      some (proj_rank svd Z r, Z + P + D - proj_rank svd Z r) := by
  simp [T, h]

/-- C1 witness: at `Z = D = [[0]]`, `lambd = 1`, `r = 1`, the proximal argument is
the zero matrix, the prox returns `some 0` with zero fuel, and the step produces
the pair given by the two contract formulas. -/
theorem fixedPointStep_eq_witness :
    T svdQ (0 : Matrix (Fin 1) (Fin 1) ℚ) 0 1 1 "max" 0 =
      some (proj_rank svdQ (0 : Matrix (Fin 1) (Fin 1) ℚ) 1,
        0 + 0 + 0 - proj_rank svdQ (0 : Matrix (Fin 1) (Fin 1) ℚ) 1) :=
  fixedPointStep_eq svdQ 0 0 1 1 "max" 0 0 (by decide)

/-! The driver loop. -/

lemma iterPair_fst {m n : ℕ} (svd : Matrix (Fin m) (Fin n) α → SVD α m n)
    (D : Matrix (Fin m) (Fin n) α) (lambd : α) (r : ℕ) (ord : String) (fuel : ℕ) :
    ∀ (k : ℕ) (Z : Matrix (Fin m) (Fin n) α)
      (p : Matrix (Fin m) (Fin n) α × Matrix (Fin m) (Fin n) α),
      iterPair svd D lambd r ord fuel k Z = some p →
      ∃ W, p.1 = proj_rank svd W r := by
  intro k
  induction k with
  | zero =>
    intro Z p h
    exact ⟨Z, T_fst h⟩
  | succ k ih =>
    intro Z p h
    simp only [iterPair] at h
    rcases Option.bind_eq_some.mp h with ⟨q, _, h2⟩
    exact ih q.2 p h2

lemma driverLoop_spec {m n : ℕ} (svd : Matrix (Fin m) (Fin n) α → SVD α m n)
    (sqrtF : α → α) (mrank : Matrix (Fin m) (Fin n) α → ℕ)
    (nnorm : Matrix (Fin m) (Fin n) α → α) (D : Matrix (Fin m) (Fin n) α) (r : ℕ)
    (lambd : α) (ord : String) (fuel : ℕ) :
    ∀ (k : ℕ) (Z : Matrix (Fin m) (Fin n) α) (ds : List (α × α × ℕ × α))
      (Xl : Option (Matrix (Fin m) (Fin n) α)),
      driverLoop svd sqrtF mrank nnorm D r lambd ord fuel k Z = some (ds, Xl) →
      ds.length = k ∧
      (∀ j, j < k → ∃ p, iterPair svd D lambd r ord fuel j Z = some p ∧
        ds.get? j = some (diagRow sqrtF mrank nnorm p.1 D)) ∧
      ((k = 0 ∧ Xl = none) ∨
        (∃ k2 q, k = k2 + 1 ∧ iterPair svd D lambd r ord fuel k2 Z = some q ∧
          Xl = some q.1)) := by
  intro k
  induction k with
  | zero =>
    intro Z ds Xl h
    simp only [driverLoop] at h
    obtain ⟨h1, h2⟩ := Prod.mk.injEq .. ▸ Option.some.inj h
    subst h1
    subst h2
    exact ⟨rfl, fun j hj => absurd hj (Nat.not_lt_zero j), Or.inl ⟨rfl, rfl⟩⟩
  | succ k ih =>
    intro Z ds Xl h
    simp only [driverLoop] at h
    rcases Option.bind_eq_some.mp h with ⟨XZ, hXZ, h2⟩
    rcases Option.map_eq_some'.mp h2 with ⟨rest, hrest, h3⟩
    obtain ⟨h4, h5⟩ := Prod.mk.injEq .. ▸ h3
    subst h4
    subst h5
    obtain ⟨hlen, hget, hlast⟩ := ih XZ.2 rest.1 rest.2 hrest
    refine ⟨by simp [hlen], ?_, ?_⟩
    · intro j hj
      cases j with
      | zero =>
        refine ⟨XZ, ?_, rfl⟩
        simpa only [iterPair] using hXZ
      | succ j =>
        obtain ⟨p, hp, hget2⟩ := hget j (Nat.lt_of_succ_lt_succ hj)
        refine ⟨p, ?_, ?_⟩
        · simp only [iterPair, hXZ, Option.some_bind]
          exact hp
        · simpa using hget2
    · right
      rcases hlast with ⟨hk0, hnone⟩ | ⟨k2, q, hk2, hq, hXl⟩
      · subst hk0
        refine ⟨0, XZ, rfl, ?_, ?_⟩
        · simpa only [iterPair] using hXZ
        · rw [hnone]
          rfl
      · subst hk2
        refine ⟨k2 + 1, q, rfl, ?_, ?_⟩
        · simp only [iterPair, hXZ, Option.some_bind]
          exact hq
        · rw [hXl]
          rfl

lemma compute_low_rank_est_parts {m n : ℕ} {svd : Matrix (Fin m) (Fin n) α → SVD α m n}
    {sqrtF : α → α} {mrank : Matrix (Fin m) (Fin n) α → ℕ}
    {nnorm : Matrix (Fin m) (Fin n) α → α} {D : Matrix (Fin m) (Fin n) α} {r : ℕ}
    {lambd : α} {ord : String} {iters fuel : ℕ}
    {out : Matrix (Fin m) (Fin n) α × List α × List α × List ℕ × List α}
    (h : compute_low_rank_est svd sqrtF mrank nnorm D r lambd ord iters fuel = some out) :
    ∃ ds : List (α × α × ℕ × α),
      driverLoop svd sqrtF mrank nnorm D r lambd ord fuel iters D = some (ds, some out.1) ∧
      out.2.1 = ds.map (fun d => d.1) ∧ out.2.2.1 = ds.map (fun d => d.2.1) ∧
      out.2.2.2.1 = ds.map (fun d => d.2.2.1) ∧ out.2.2.2.2 = ds.map (fun d => d.2.2.2) := by
  simp only [compute_low_rank_est] at h
  rcases Option.bind_eq_some.mp h with ⟨p, hp, h2⟩
  rcases Option.map_eq_some'.mp h2 with ⟨X2, hX2, h3⟩
  refine ⟨p.1, ?_, ?_⟩
  · rw [← h3, ← hX2]
    exact hp
  · rw [← h3]
    exact ⟨rfl, rfl, rfl, rfl⟩

/-- C5: on success, the driver performs exactly `iters` fixed point steps with no
early exit: all four diagnostic sequences have length exactly `iters`, the entry
at each index `k < iters` is computed from the iterate `X` produced by step `k`
together with `D` (not from `Z`), and the returned matrix is the `X` of the last
step. -/
theorem compute_low_rank_est_diagnostics {m n : ℕ}
    (svd : Matrix (Fin m) (Fin n) α → SVD α m n) (sqrtF : α → α)
    (mrank : Matrix (Fin m) (Fin n) α → ℕ) (nnorm : Matrix (Fin m) (Fin n) α → α)
    (D : Matrix (Fin m) (Fin n) α) (r : ℕ) (lambd : α) (ord : String) (iters fuel : ℕ)
    (X : Matrix (Fin m) (Fin n) α) (em ef : List α) (rk : List ℕ) (nn : List α)
    (hit : 1 ≤ iters)
    (h : compute_low_rank_est svd sqrtF mrank nnorm D r lambd ord iters fuel =
      some (X, em, ef, rk, nn)) :
    em.length = iters ∧ ef.length = iters ∧ rk.length = iters ∧ nn.length = iters ∧
    (∀ k, k < iters → ∃ p, iterPair svd D lambd r ord fuel k D = some p ∧
      em.get? k = some (maxAbs (flatten (p.1 - D)) / maxAbs (flatten D)) ∧
      ef.get? k = some (froNorm sqrtF (p.1 - D) / froNorm sqrtF D) ∧
      rk.get? k = some (mrank p.1) ∧ nn.get? k = some (nnorm p.1)) ∧
    (∃ k2 q, iters = k2 + 1 ∧ iterPair svd D lambd r ord fuel k2 D = some q ∧
      X = q.1) := by
  obtain ⟨ds, hdl, he1, he2, he3, he4⟩ := compute_low_rank_est_parts h
  obtain ⟨hlen, hget, hlast⟩ :=
    driverLoop_spec svd sqrtF mrank nnorm D r lambd ord fuel iters D ds (some X) hdl
  simp only at he1 he2 he3 he4
  subst he1
  subst he2
  subst he3
  subst he4
  refine ⟨by simp [hlen], by simp [hlen], by simp [hlen], by simp [hlen], ?_, ?_⟩
  · intro k hk
    obtain ⟨p, hp, hget2⟩ := hget k hk
    refine ⟨p, hp, ?_, ?_, ?_, ?_⟩ <;>
      simp only [List.get?_map, hget2, Option.map_some', diagRow]
  · rcases hlast with ⟨hk0, _⟩ | ⟨k2, q, hk2, hq, hXl⟩
    · omega
    · exact ⟨k2, q, hk2, hq, Option.some.inj hXl⟩

/-- C6: the rank projection returns a matrix of rank at most `r` for every input
and target rank (whatever factors the SVD routine produced); consequently the
iterate `X` produced by any successful fixed point step, and the `X` returned by
the driver, have rank at most `r`. -/
theorem rank_le_target {m n : ℕ} (svd : Matrix (Fin m) (Fin n) α → SVD α m n) (r : ℕ) :
    (∀ (A : Matrix (Fin m) (Fin n) α), (proj_rank svd A r).rank ≤ r) ∧
    (∀ (Z D : Matrix (Fin m) (Fin n) α) (lambd : α) (ord : String) (fuel : ℕ)
      (p : Matrix (Fin m) (Fin n) α × Matrix (Fin m) (Fin n) α),
      T svd Z D lambd r ord fuel = some p → p.1.rank ≤ r) ∧
    (∀ (sqrtF : α → α) (mrank : Matrix (Fin m) (Fin n) α → ℕ)
      (nnorm : Matrix (Fin m) (Fin n) α → α) (D : Matrix (Fin m) (Fin n) α)
      (lambd : α) (ord : String) (iters fuel : ℕ)
      (out : Matrix (Fin m) (Fin n) α × List α × List α × List ℕ × List α),
      compute_low_rank_est svd sqrtF mrank nnorm D r lambd ord iters fuel = some out →
      out.1.rank ≤ r) := by
  refine ⟨fun A => rank_proj_rank_le svd A r, ?_, ?_⟩
  · intro Z D lambd ord fuel p hp
    rw [T_fst hp]
    exact rank_proj_rank_le svd Z r
  · intro sqrtF mrank nnorm D lambd ord iters fuel out h
    obtain ⟨ds, hdl, _⟩ := compute_low_rank_est_parts h
    obtain ⟨_, _, hlast⟩ :=
      driverLoop_spec svd sqrtF mrank nnorm D r lambd ord fuel iters D ds (some out.1) hdl
    rcases hlast with ⟨_, hnone⟩ | ⟨k2, q, _, hq, hXl⟩
    · exact absurd hnone (by simp)
    · obtain ⟨W, hW⟩ := iterPair_fst svd D lambd r ord fuel k2 D q hq
      rw [Option.some.inj hXl, hW]
      exact rank_proj_rank_le svd W r

/-! Behaviour on the all-zero target matrix (division-by-zero diagnostics). -/

lemma sum_map_sq_zero {l : List α} (h : ∀ a ∈ l, a = 0) :
    (l.map fun a => a * a).sum = 0 := by
  induction l with
  | nil => rfl
  | cons a l ih =>
    rw [List.map_cons, List.sum_cons, h a (List.mem_cons_self a l),
      ih fun b hb => h b (List.mem_cons_of_mem a hb)]
    ring

lemma absSum_eq_zero {l : List α} (h : ∀ a ∈ l, a = 0) : absSum l = 0 := by
  induction l with
  | nil => rfl
  | cons a l ih =>
    rw [absSum, List.map_cons, List.sum_cons, h a (List.mem_cons_self a l)]
    have := ih fun b hb => h b (List.mem_cons_of_mem a hb)
    rw [absSum] at this
    rw [this, abs_zero, add_zero]

lemma maxAbs_eq_zero {l : List α} (h : ∀ a ∈ l, a = 0) : maxAbs l = 0 := by
  induction l with
  | nil => rfl
  | cons a l ih =>
    rw [maxAbs_cons, h a (List.mem_cons_self a l), abs_zero,
      ih fun b hb => h b (List.mem_cons_of_mem a hb), max_self]

lemma flatten_zero_mem {m n : ℕ} : ∀ a ∈ flatten (0 : Matrix (Fin m) (Fin n) α), a = 0 := by
  intro a ha
  simp only [flatten, List.mem_flatMap, List.mem_map] at ha
  obtain ⟨i, _, j, _, hj⟩ := ha
  rw [← hj]
  rfl

lemma maxAbs_flatten_zero {m n : ℕ} :
    maxAbs (flatten (0 : Matrix (Fin m) (Fin n) α)) = 0 :=
  maxAbs_eq_zero flatten_zero_mem

lemma froNorm_zero {m n : ℕ} (sqrtF : α → α) (h0 : sqrtF 0 = 0) :
    froNorm sqrtF (0 : Matrix (Fin m) (Fin n) α) = 0 := by
  rw [froNorm, sum_map_sq_zero flatten_zero_mem, h0]

lemma proj_rank_zero_input {m n : ℕ} {svd : Matrix (Fin m) (Fin n) α → SVD α m n}
    (hsvd : IsSVD svd) (r : ℕ) : proj_rank svd (0 : Matrix (Fin m) (Fin n) α) r = 0 := by
  have hA : (0 : Matrix (Fin m) (Fin n) α).rank ≤ r := by
    rw [Matrix.rank_zero]
    exact Nat.zero_le r
  rw [proj_rank, truncSV_eq_of_rank_le hsvd hA, hsvd.recon]

lemma T_zero_matrix {m n : ℕ} {svd : Matrix (Fin m) (Fin n) α → SVD α m n}
    (hsvd : IsSVD svd) (lambd : α) (hl : 0 ≤ lambd) (r : ℕ) (ord : String) (fuel : ℕ) :
    T svd (0 : Matrix (Fin m) (Fin n) α) 0 lambd r ord fuel = some (0, 0) := by
  simp only [T, proj_rank_zero_input hsvd r]
  have harg : (2 : α) • (0 : Matrix (Fin m) (Fin n) α) - 0 - 0 = 0 := by
    simp
  rw [harg, prox_max_norm_of_le _ _ _ (by rw [absSum_eq_zero flatten_zero_mem]; exact hl)]
  simp

lemma diagRow_zero {m n : ℕ} (sqrtF : α → α) (h0 : sqrtF 0 = 0)
    (mrank : Matrix (Fin m) (Fin n) α → ℕ) (nnorm : Matrix (Fin m) (Fin n) α → α) :
    diagRow sqrtF mrank nnorm (0 : Matrix (Fin m) (Fin n) α) 0 =
      ((0 : α) / 0, (0 : α) / 0, mrank 0, nnorm 0) := by
  rw [diagRow, sub_zero, maxAbs_flatten_zero, froNorm_zero sqrtF h0]

lemma driverLoop_zero {m n : ℕ} {svd : Matrix (Fin m) (Fin n) α → SVD α m n}
    (hsvd : IsSVD svd) (sqrtF : α → α) (h0 : sqrtF 0 = 0)
    (mrank : Matrix (Fin m) (Fin n) α → ℕ) (nnorm : Matrix (Fin m) (Fin n) α → α)
    (r : ℕ) (lambd : α) (hl : 0 ≤ lambd) (ord : String) (fuel : ℕ) :
    ∀ k : ℕ, driverLoop svd sqrtF mrank nnorm 0 r lambd ord fuel k 0 =
      some (List.replicate k ((0 : α) / 0, (0 : α) / 0, mrank 0, nnorm 0),
        if k = 0 then none else some 0) := by
  intro k
  induction k with
  | zero => simp [driverLoop]
  | succ k ih =>
    simp only [driverLoop, T_zero_matrix hsvd lambd hl r ord fuel, Option.some_bind, ih,
      Option.map_some', diagRow_zero sqrtF h0 mrank nnorm, List.replicate_succ]
    by_cases hk : k = 0 <;> simp [hk]

/-- C9 (implicit): on the all-zero target `D = 0` — an input the interface admits —
both diagnostic denominators `max|D|` and `‖D‖_F` are zero, yet the driver does
not fail fast: it runs all `iters` iterations and records every `err_max` and
`err_fro` entry as the unguarded quotient `0 / 0` (in this exact-arithmetic
embedding division by zero is total with `a / 0 = 0`; in the floating point
semantics of the source these entries are NaN). -/
theorem compute_low_rank_est_zero_division {m n : ℕ}
    (svd : Matrix (Fin m) (Fin n) α → SVD α m n) (hsvd : IsSVD svd) (sqrtF : α → α)
    (h0 : sqrtF 0 = 0) (mrank : Matrix (Fin m) (Fin n) α → ℕ)
    (nnorm : Matrix (Fin m) (Fin n) α → α) (r : ℕ) (lambd : α) (hl : 0 < lambd)
    (ord : String) (iters fuel : ℕ) (hit : 1 ≤ iters) :
    maxAbs (flatten (0 : Matrix (Fin m) (Fin n) α)) = 0 ∧
    froNorm sqrtF (0 : Matrix (Fin m) (Fin n) α) = 0 ∧
    compute_low_rank_est svd sqrtF mrank nnorm 0 r lambd ord iters fuel =
      some (0, List.replicate iters ((0 : α) / 0), List.replicate iters ((0 : α) / 0),
        List.replicate iters (mrank 0), List.replicate iters (nnorm 0)) := by
  refine ⟨maxAbs_flatten_zero, froNorm_zero sqrtF h0, ?_⟩
  obtain ⟨it2, rfl⟩ : ∃ i2, iters = i2 + 1 := ⟨iters - 1, by omega⟩
  simp only [compute_low_rank_est,
    driverLoop_zero hsvd sqrtF h0 mrank nnorm r lambd (le_of_lt hl) ord fuel (it2 + 1),
    Option.some_bind, List.map_replicate]
  simp

/-! Concrete instantiation of the abstract SVD routine at `1 × 1` rational
matrices, used to evaluate the theorems above on concrete inputs. -/

lemma sum_univ_min_one_one (f : Fin (min 1 1) → ℚ) : ∑ l, f l = f ⟨0, Nat.one_pos⟩ :=
  Fin.sum_univ_one f

lemma svdQ_isSVD : IsSVD svdQ := by
  constructor
  · intro A
    ext i j
    rw [Matrix.mul_apply, sum_univ_min_one_one]
    have hi : i = 0 := Subsingleton.elim i 0
    have hj : j = 0 := Subsingleton.elim j 0
    subst hi
    subst hj
    show 1 * |A 0 0| * (if A 0 0 < 0 then -1 else 1) = A 0 0
    rcases lt_or_le (A 0 0) 0 with h | h
    · rw [if_pos h, abs_of_neg h]
      ring
    · rw [if_neg (not_lt.mpr h), abs_of_nonneg h]
      ring
  · intro A
    ext i j
    have hij : i = j := by
      apply Fin.ext
      have h1 := i.isLt
      have h2 := j.isLt
      omega
    subst hij
    rw [Matrix.mul_apply, Fin.sum_univ_one, Matrix.one_apply_eq]
    show (1 : ℚ) * 1 = 1
    ring
  · intro A
    ext i j
    have hij : i = j := by
      apply Fin.ext
      have h1 := i.isLt
      have h2 := j.isLt
      omega
    subst hij
    rw [Matrix.mul_apply, Fin.sum_univ_one, Matrix.one_apply_eq]
    show (if A 0 0 < 0 then (-1 : ℚ) else 1) * (if A 0 0 < 0 then (-1 : ℚ) else 1) = 1
    rcases lt_or_le (A 0 0) 0 with h | h
    · rw [if_pos h]
      ring
    · rw [if_neg (not_lt.mpr h)]
      ring
  · intro A i j _
    exact le_refl _
  · intro A i
    exact abs_nonneg _

lemma driver_eval0 :
    compute_low_rank_est svdQ id (fun _ => 0) (fun _ => 0)
      (0 : Matrix (Fin 1) (Fin 1) ℚ) 1 1 "fro" 1 0 =
      some (0, [0], [0], [0], [0]) := by
  simp only [compute_low_rank_est,
    driverLoop_zero svdQ_isSVD id rfl (fun _ => 0) (fun _ => 0) 1 1 (by norm_num) "fro" 0 1,
    Option.some_bind, Option.map_some', List.map_replicate]
  simp

/-- C5 witness: the driver at `D = [[0]]`, `r = 1`, `lambd = 1`, `iters = 1`
succeeds with the four singleton diagnostic sequences, and the theorem's
conclusion holds there. -/
theorem compute_low_rank_est_diagnostics_witness :
    ([(0 : ℚ)].length = 1 ∧ [(0 : ℚ)].length = 1 ∧ [(0 : ℕ)].length = 1 ∧
      [(0 : ℚ)].length = 1 ∧
      (∀ k, k < 1 → ∃ p, iterPair svdQ (0 : Matrix (Fin 1) (Fin 1) ℚ) 1 1 "fro" 0 k 0 =
          some p ∧
        [(0 : ℚ)].get? k =
          some (maxAbs (flatten (p.1 - 0)) /
            maxAbs (flatten (0 : Matrix (Fin 1) (Fin 1) ℚ))) ∧
        [(0 : ℚ)].get? k =
          some (froNorm id (p.1 - 0) / froNorm id (0 : Matrix (Fin 1) (Fin 1) ℚ)) ∧
        [(0 : ℕ)].get? k = some 0 ∧ [(0 : ℚ)].get? k = some 0) ∧
      (∃ k2 q, 1 = k2 + 1 ∧
        iterPair svdQ (0 : Matrix (Fin 1) (Fin 1) ℚ) 1 1 "fro" 0 k2 0 = some q ∧
        (0 : Matrix (Fin 1) (Fin 1) ℚ) = q.1)) :=
  compute_low_rank_est_diagnostics svdQ id (fun _ => 0) (fun _ => 0) 0 1 1 "fro" 1 0
    0 [0] [0] [0] [0] (le_refl 1) driver_eval0

/-- C6 witness: concrete rank bounds from all three parts of the theorem, at
`A = [[3]]`, at a successful fixed point step, and at a successful driver run. -/
theorem rank_le_target_witness :
    (proj_rank svdQ !![(3 : ℚ)] 1).rank ≤ 1 ∧
    Matrix.rank (0 : Matrix (Fin 1) (Fin 1) ℚ) ≤ 1 ∧
    Matrix.rank (0 : Matrix (Fin 1) (Fin 1) ℚ) ≤ 1 :=
  ⟨(rank_le_target svdQ 1).1 !![(3 : ℚ)],
   (rank_le_target svdQ 1).2.1 0 0 1 "max" 0 (0, 0)
     (T_zero_matrix svdQ_isSVD 1 (by norm_num) 1 "max" 0),
   (rank_le_target svdQ 1).2.2 id (fun _ => 0) (fun _ => 0) 0 1 "fro" 1 0
     (0, [0], [0], [0], [0]) driver_eval0⟩

/-- C7 witness: idempotence of the rank projection at the concrete matrix
`[[3]]` with the concrete SVD routine. -/
theorem proj_rank_idempotent_witness :
    proj_rank svdQ (proj_rank svdQ !![(3 : ℚ)] 1) 1 = proj_rank svdQ !![(3 : ℚ)] 1 :=
  proj_rank_idempotent svdQ svdQ_isSVD !![(3 : ℚ)] 1

/-- C9 witness: the division-by-zero behaviour on the concrete all-zero `1 × 1`
target with one iteration. -/
theorem compute_low_rank_est_zero_division_witness :
    maxAbs (flatten (0 : Matrix (Fin 1) (Fin 1) ℚ)) = 0 ∧
    froNorm id (0 : Matrix (Fin 1) (Fin 1) ℚ) = 0 ∧
    compute_low_rank_est svdQ id (fun _ => 0) (fun _ => 0) 0 1 1 "fro" 1 0 =
      some (0, List.replicate 1 ((0 : ℚ) / 0), List.replicate 1 ((0 : ℚ) / 0),
        List.replicate 1 0, List.replicate 1 0) :=
  compute_low_rank_est_zero_division svdQ svdQ_isSVD id rfl (fun _ => 0) (fun _ => 0)
    1 1 (by norm_num) "fro" 1 0 (le_refl 1)

end ProxMaxNorm
